import Mathlib

/-!
Verification development for the BigData medallion pipeline
(silver cleaning, gold aggregation, MongoDB synchronization).

Each definition below is a shallow embedding of a function of the
repository; pandas DataFrames become lists of typed rows, machine
floats become rationals (with an explicit IEEE-style wrapper where NaN
and infinity semantics matter), and the MongoDB collection becomes an
in-memory list of documents.  Dates are encoded as integers in
`yyyymmdd` form, so that chronological order is integer order and the
calendar month of a date is obtained by dividing by 100 (mirroring
pandas `dt.date` and `dt.to_period('M')`).
-/

namespace BigData

/-! ### Generic list operations shared by the cleaners

`drop_duplicates(subset=[k], keep='last')` keeps, for every key value,
the last row carrying it, leaving kept rows in their original relative
order.  We realize it as "keep first occurrence" on the reversed list.
pandas treats two NaN keys as duplicates of each other, which matches
`Option` equality below. -/

def dedupKeepFirstAux {α κ : Type} [DecidableEq κ] (key : α → κ) :
    List α → List κ → List α
  | [], _ => []
  | a :: as, seen =>
    if key a ∈ seen then dedupKeepFirstAux key as seen
    else a :: dedupKeepFirstAux key as (key a :: seen)

def dedupKeepFirst {α κ : Type} [DecidableEq κ] (key : α → κ) (l : List α) : List α :=
  dedupKeepFirstAux key l []

def dedupKeepLast {α κ : Type} [DecidableEq κ] (key : α → κ) (l : List α) : List α :=
  (dedupKeepFirstAux key l.reverse []).reverse

/-- Ascending comparison used by `sort_values` on a nullable date
column: pandas places `NaT` after every real date (`na_position='last'`). -/
def optLeB : Option ℤ → Option ℤ → Bool
  | _, none => true
  | none, some _ => false
  | some x, some y => decide (x ≤ y)

def optLe (a b : Option ℤ) : Prop := optLeB a b = true

instance : DecidableRel optLe := fun a b =>
  inferInstanceAs (Decidable (optLeB a b = true))

instance : IsTotal (Option ℤ) optLe where
  total a b := by
    cases a <;> cases b <;> simp only [optLe, optLeB] <;>
      first
        | exact Or.inl rfl
        | exact Or.inr rfl
        | simpa using le_total _ _

instance : IsTrans (Option ℤ) optLe where
  trans a b c hab hbc := by
    cases a <;> cases b <;> cases c <;>
      simp only [optLe, optLeB, decide_eq_true_eq] at * <;> try trivial
    exact le_trans hab hbc

/-! ### Silver cleaner: purchases (`_clean_achats`)

An input row after the two lenient coercions of the source
(`pd.to_datetime(..., errors='coerce')` on `date_achat` and
`pd.to_numeric(..., errors='coerce')` on `montant`): a cell that failed
to parse is `none`. -/

structure AchatRow where
  id_achat : Option ℤ
  id_client : Option ℤ
  date_achat : Option ℤ
  montant : Option ℚ
  produit : String
deriving DecidableEq, Repr

/-- Line 80: `df.dropna(subset=['id_achat', 'id_client', 'date_achat', 'montant'])`. -/
def dropNullAchats (l : List AchatRow) : List AchatRow :=
  l.filter fun r =>
    r.id_achat.isSome && r.id_client.isSome && r.date_achat.isSome && r.montant.isSome

/-- Line 83: `df[df['montant'] >= 0]` (a NaN amount compares as False and is dropped). -/
def dropNegAchats (l : List AchatRow) : List AchatRow :=
  l.filter fun r =>
    match r.montant with
    | some m => decide (0 ≤ m)
    | none => false

/-- Value of `series.quantile(q)` on a nonempty column, with pandas'
default linear interpolation: for the ascending sort `s` of the values
and `h = q*(n-1)`, the result is `s[⌊h⌋] + (h-⌊h⌋)*(s[⌊h⌋+1] - s[⌊h⌋])`. -/
def quantileVal (xs : List ℚ) (q : ℚ) : ℚ :=
  let s := List.insertionSort (fun a b : ℚ => a ≤ b) xs
  let n := s.length
  let h : ℚ := q * ((n : ℚ) - 1)
  let i : ℕ := (Int.toNat h.floor)
  let lo := s.getD i 0
  let hi := s.getD (i + 1) lo
  lo + (h - (i : ℚ)) * (hi - lo)

/-- `series.quantile(q)`: NaN (here `none`) on an empty column. -/
def quantile (xs : List ℚ) (q : ℚ) : Option ℚ :=
  if xs = [] then none else some (quantileVal xs q)

/-- The amount column of a purchase list (`df['montant']`, NaN cells skipped). -/
def montants (l : List AchatRow) : List ℚ := l.filterMap fun r => r.montant

/-- Lines 86-91: compute `q1`, `q3` over the surviving amount column and keep
the rows with `lower_bound <= montant <= upper_bound`.  When the column is
empty both quantiles are NaN and every comparison is False. -/
def iqrFilterAchats (l : List AchatRow) : List AchatRow :=
  match quantile (montants l) (mkRat 1 4), quantile (montants l) (mkRat 3 4) with
  | some q1, some q3 =>
    l.filter fun r =>
      match r.montant with
      | some m => decide (q1 - 3 * (q3 - q1) ≤ m) && decide (m ≤ q3 + 3 * (q3 - q1))
      | none => false
  | _, _ => l.filter fun _ => false

/-- Comparison used by `sort_values('date_achat')`. -/
def achatDateLe : AchatRow → AchatRow → Prop := fun a b =>
  optLe a.date_achat b.date_achat

instance : DecidableRel achatDateLe := fun a b =>
  inferInstanceAs (Decidable (optLe a.date_achat b.date_achat))

instance : IsTotal AchatRow achatDateLe where
  total a b := IsTotal.total (r := optLe) a.date_achat b.date_achat

instance : IsTrans AchatRow achatDateLe where
  trans a b c hab hbc := IsTrans.trans (r := optLe) _ _ _ hab hbc

/-- `_clean_achats` (src/flows/silver_ingestion.py lines 71-95): lenient
coercions (absorbed into the `Option`-typed cells), null drop, negative
drop, 3·IQR outlier filter, then
`sort_values('date_achat').drop_duplicates(subset=['id_achat'], keep='last')`. -/
def cleanAchats (l : List AchatRow) : List AchatRow :=
  dedupKeepLast (fun r => r.id_achat)
    (List.insertionSort achatDateLe (iqrFilterAchats (dropNegAchats (dropNullAchats l))))

/-! ### Silver cleaner: clients (`_clean_clients`) -/

structure ClientRow where
  id_client : Option ℤ
  nom : String
  email : String
  pays : String
  date_inscription : Option ℤ
deriving DecidableEq, Repr

/-- Python `str.strip()`: drop whitespace from both ends (spelled on the
character list so that it evaluates inside the kernel). -/
def pyStrip (s : String) : String :=
  String.mk (((s.data.dropWhile fun c => c.isWhitespace).reverse.dropWhile
    fun c => c.isWhitespace).reverse)

/-- Python `str.lower()` on ASCII data. -/
def pyLower (s : String) : String := String.mk (s.data.map Char.toLower)

/-- Lines 57-61: the fixed country alias table (applied after `str.strip()`;
the `'Netherland '` key is kept for fidelity although stripping makes it
unreachable). -/
def countryMap (s : String) : String :=
  if s = "Netherland" then "Netherlands"
  else if s = "Netherland " then "Netherlands"
  else if s = "UK" then "United Kingdom"
  else s

/-- Lines 50-62: trim name, trim and lower-case email, parse the
registration date leniently (absorbed into the `Option` cell), strip and
canonicalize the country. -/
def normalizeClient (r : ClientRow) : ClientRow :=
  { r with
    nom := pyStrip r.nom
    email := pyLower (pyStrip r.email)
    pays := countryMap (pyStrip r.pays) }

/-- Line 65: `df.dropna(subset=['id_client'])`. -/
def dropNullClients (l : List ClientRow) : List ClientRow :=
  l.filter fun r => r.id_client.isSome

/-- Comparison used by `sort_values('date_inscription')` (NaT last). -/
def clientDateLe : ClientRow → ClientRow → Prop := fun a b =>
  optLe a.date_inscription b.date_inscription

instance : DecidableRel clientDateLe := fun a b =>
  inferInstanceAs (Decidable (optLe a.date_inscription b.date_inscription))

instance : IsTotal ClientRow clientDateLe where
  total a b := IsTotal.total (r := optLe) a.date_inscription b.date_inscription

instance : IsTrans ClientRow clientDateLe where
  trans a b c hab hbc := IsTrans.trans (r := optLe) _ _ _ hab hbc

/-- `_clean_clients` (src/flows/silver_ingestion.py lines 47-69):
normalization, null-id drop, then
`sort_values('date_inscription').drop_duplicates(subset=['id_client'], keep='last')`. -/
def cleanClients (l : List ClientRow) : List ClientRow :=
  dedupKeepLast (fun r => r.id_client)
    (List.insertionSort clientDateLe (dropNullClients (l.map normalizeClient)))

/-- Modelled from the spec and claim C6's words (for comparison with
`cleanClients`): drop null ids, then keep per `customer_id` "the row with
the latest `registration_date`, ties broken by input order, last wins" -
a null date is never the latest when a real date is present, so the
stable ascending sort here places `none` BEFORE every real date. -/
def optLeNullFirstB : Option ℤ → Option ℤ → Bool
  | none, _ => true
  | some _, none => false
  | some x, some y => decide (x ≤ y)

def optLeNullFirst (a b : Option ℤ) : Prop := optLeNullFirstB a b = true

instance : DecidableRel optLeNullFirst := fun a b =>
  inferInstanceAs (Decidable (optLeNullFirstB a b = true))

def claimClientDateLe : ClientRow → ClientRow → Prop := fun a b =>
  optLeNullFirst a.date_inscription b.date_inscription

instance : DecidableRel claimClientDateLe := fun a b =>
  inferInstanceAs (Decidable (optLeNullFirst a.date_inscription b.date_inscription))

/-- Modelled from the spec: the cleaning rule claim C6 asserts
(latest real registration date wins; a null date only wins inside an
all-null group; ties broken by input order, last wins). -/
def specLatestDateCleanClients (l : List ClientRow) : List ClientRow :=
  dedupKeepLast (fun r => r.id_client)
    (List.insertionSort claimClientDateLe (dropNullClients (l.map normalizeClient)))

/-! ### Gold aggregator (`gold_aggregations`, src/flows/gold_aggregation.py)

Rows of the silver tables after the typing block (lines 33-40); a cell
that failed `errors='coerce'` is `none`.  `date_achat` is a `yyyymmdd
`-encoded integer so `dt.date` is the identity and `dt.to_period('M')`
is division by 100. -/

/-- Line 43: `dim_client` = selected columns, `drop_duplicates(subset=['id_client'])`
(default `keep='first'`). -/
def dimClient (clients : List ClientRow) : List ClientRow :=
  dedupKeepFirst (fun r => r.id_client) clients

/-- One row of `fact_purchases`: a purchase enriched with the customer's
country by the left merge of line 55 (a purchase whose `id_client` is null
or unmatched keeps a null `pays`; pandas never merge-matches NaN keys). -/
structure FactRow where
  id_achat : Option ℤ
  id_client : Option ℤ
  date_achat : Option ℤ
  montant : Option ℚ
  produit : String
  pays : Option String
deriving DecidableEq, Repr

/-- Lines 55-56: `fact_purchases = df_achats.merge(dim_client[['id_client','pays']],
on='id_client', how='left')` restricted to the fact columns.  `dim_client`
has unique keys, so the left merge maps each purchase to at most one match. -/
def mkFact (achats : List AchatRow) (clients : List ClientRow) : List FactRow :=
  achats.map fun a =>
    { id_achat := a.id_achat
      id_client := a.id_client
      date_achat := a.date_achat
      montant := a.montant
      produit := a.produit
      pays :=
        match a.id_client with
        | none => none
        | some i =>
          ((dimClient clients).find? fun c => c.id_client == some i).map fun c => c.pays }

/-- Sum of a `montant` column with pandas `skipna` semantics. -/
def sumMont (l : List FactRow) : ℚ := (l.filterMap fun r => r.montant).sum

/-- Non-null count of a `montant` column (the denominator of a pandas mean). -/
def nnMont (l : List FactRow) : ℕ := (l.filterMap fun r => r.montant).length

/-- Ascending sorted list of the distinct values of an integer key column:
`groupby` emits one group per distinct non-null key, sorted. -/
def sortedDistinctInts (l : List ℤ) : List ℤ :=
  List.insertionSort (fun a b : ℤ => a ≤ b) (dedupKeepFirst id l)

/-- One row of `agg_daily` (line 65-69). -/
structure AggDailyRow where
  date : ℤ
  transactions : ℕ
  revenue : ℚ
  avg_ticket : ℚ
deriving DecidableEq, Repr

/-- The group of fact rows carrying a given (non-null) date. -/
def dateGroup (dt : ℤ) (facts : List FactRow) : List FactRow :=
  facts.filter fun r => r.date_achat == some dt

/-- Lines 64-69: `fact_purchases.groupby('date').agg(transactions=('id_achat','count'),
revenue=('montant','sum'), avg_ticket=('montant','mean'))`.  `groupby` drops
null dates; `'count'` counts non-null `id_achat` cells; the mean divides by
the non-null count (every group is nonempty, so on cleaned data the
denominator is positive). -/
def aggDaily (facts : List FactRow) : List AggDailyRow :=
  (sortedDistinctInts (facts.filterMap fun r => r.date_achat)).map fun dt =>
    { date := dt
      transactions := (dateGroup dt facts).countP fun r => r.id_achat.isSome
      revenue := sumMont (dateGroup dt facts)
      avg_ticket := sumMont (dateGroup dt facts) / (nnMont (dateGroup dt facts) : ℚ) }

/-- The calendar month of a `yyyymmdd` date (`dt.to_period('M')`). -/
def monthOf (d : ℤ) : ℤ := d / 100

/-- The group of fact rows falling in a given month. -/
def monthGroup (m : ℤ) (facts : List FactRow) : List FactRow :=
  facts.filter fun r => r.date_achat.map monthOf == some m

/-- Lines 71-75: monthly revenue, one `(year_month, revenue)` row per
distinct month, sorted ascending by month key. -/
def aggMonthlyRevenue (facts : List FactRow) : List (ℤ × ℚ) :=
  (sortedDistinctInts (facts.filterMap fun r => r.date_achat.map monthOf)).map fun m =>
    (m, sumMont (monthGroup m facts))

/-- IEEE-style wrapper for the float arithmetic of lines 78-79: the
`shift(1)` predecessor of the first row is NaN, and dividing by a zero
revenue produces an infinity or NaN. -/
inductive PFloat where
  | nan : PFloat
  | inf : PFloat
  | ninf : PFloat
  | val : ℚ → PFloat
deriving DecidableEq, Repr

def pfOfOpt : Option ℚ → PFloat
  | none => PFloat.nan
  | some q => PFloat.val q

/-- Float subtraction (only the value/NaN cases arise in line 79). -/
def pfSub : PFloat → PFloat → PFloat
  | PFloat.val a, PFloat.val b => PFloat.val (a - b)
  | PFloat.nan, _ => PFloat.nan
  | _, PFloat.nan => PFloat.nan
  | PFloat.inf, PFloat.inf => PFloat.nan
  | PFloat.ninf, PFloat.ninf => PFloat.nan
  | PFloat.inf, _ => PFloat.inf
  | PFloat.ninf, _ => PFloat.ninf
  | PFloat.val _, PFloat.inf => PFloat.ninf
  | PFloat.val _, PFloat.ninf => PFloat.inf

/-- Float division: `x/0` is `±inf` for nonzero `x` and NaN for `0/0`. -/
def pfDiv : PFloat → PFloat → PFloat
  | PFloat.val a, PFloat.val b =>
    if b = 0 then
      (if a = 0 then PFloat.nan else if 0 < a then PFloat.inf else PFloat.ninf)
    else PFloat.val (a / b)
  | PFloat.nan, _ => PFloat.nan
  | _, PFloat.nan => PFloat.nan
  | PFloat.inf, PFloat.val b => if 0 ≤ b then PFloat.inf else PFloat.ninf
  | PFloat.ninf, PFloat.val b => if 0 ≤ b then PFloat.ninf else PFloat.inf
  | _, _ => PFloat.nan

/-- Line 79 tail: `.replace([np.inf, -np.inf], np.nan)`. -/
def replaceInfNan : PFloat → PFloat
  | PFloat.inf => PFloat.nan
  | PFloat.ninf => PFloat.nan
  | x => x

/-- Writing a float cell to CSV: NaN becomes an empty cell, i.e. null. -/
def persistPF : PFloat → Option ℚ
  | PFloat.val q => some q
  | _ => none

/-- Lines 78-79 per row: `pct_change = (revenue - revenue_prev) / revenue_prev`,
infinities replaced by NaN, NaN persisted as null.  The first argument is
the `shift(1)` predecessor of the current row (`none` for the first row). -/
def pctChange : Option ℚ → List ℚ → List (Option ℚ)
  | _, [] => []
  | prev, r :: rs =>
    persistPF (replaceInfNan (pfDiv (pfSub (PFloat.val r) (pfOfOpt prev)) (pfOfOpt prev)))
      :: pctChange (some r) rs

/-- The persisted `pct_change` column of `agg_monthly`. -/
def aggMonthlyPct (facts : List FactRow) : List (Option ℚ) :=
  pctChange none ((aggMonthlyRevenue facts).map fun p => p.2)

/-- The `shift(1)` predecessor of row `i` of a revenue column whose
(virtual) row `-1` is `prev`: NaN-as-`none` for the first row, the
previous row's revenue otherwise. -/
def prevAt (prev : Option ℚ) (revs : List ℚ) (i : ℕ) : Option ℚ :=
  if i = 0 then prev else some (revs.getD (i - 1) 0)

/-- One row of `revenue_by_country` (line 82); `groupby('pays')` drops
null countries and sorts keys. -/
def revenueByCountry (facts : List FactRow) : List (String × ℚ × ℕ) :=
  (List.insertionSort (fun a b : String => a ≤ b)
      (dedupKeepFirst id (facts.filterMap fun r => r.pays))).map fun c =>
    let g := facts.filter fun r => r.pays == some c
    (c, sumMont g, g.countP fun r => r.id_achat.isSome)

/-- One row of `stats_by_product` (lines 85-91).  The source's `std` column
is the square root of `sampleVar` (sample variance, `ddof=1`), which is NaN
- hence null - for groups with fewer than two amounts; the variance is kept
here so the model stays inside `ℚ`. -/
structure StatsRow where
  produit : String
  count : ℕ
  revenue : ℚ
  mean : ℚ
  median : ℚ
  sampleVar : Option ℚ
deriving DecidableEq, Repr

def statsByProduct (facts : List FactRow) : List StatsRow :=
  (List.insertionSort (fun a b : String => a ≤ b)
      (dedupKeepFirst id (facts.map fun r => r.produit))).map fun p =>
    let g := facts.filter fun r => r.produit == p
    let ms := g.filterMap fun r => r.montant
    let n := ms.length
    let mean := ms.sum / (n : ℚ)
    { produit := p
      count := g.countP fun r => r.id_achat.isSome
      revenue := ms.sum
      mean := mean
      median := quantileVal ms (mkRat 1 2)
      sampleVar :=
        if n < 2 then none
        else some (((ms.map fun x => (x - mean) ^ 2).sum) / ((n : ℚ) - 1)) }

/-- The single `kpis.csv` row (lines 58-61 and 102-106): total revenue,
transaction count, and `avg_order_value = mean(montant)` guarded to 0 when
there are no transactions. -/
structure KpiRow where
  total_revenue : ℚ
  total_transactions : ℕ
  avg_order_value : ℚ
deriving DecidableEq, Repr

def kpis (facts : List FactRow) : KpiRow :=
  { total_revenue := sumMont facts
    total_transactions := facts.length
    avg_order_value :=
      if 0 < facts.length then sumMont facts / (nnMont facts : ℚ) else 0 }

/-- Lines 46-52: `dim_date` = distinct non-null purchase dates with their
day/week-of-year/month/year decomposition (day and year read off the
`yyyymmdd` encoding; the ISO week is left abstract as it never matters to
the claims, hence the 0 placeholder mirroring `dt.isocalendar().week`
only in shape). -/
def dimDate (facts : List FactRow) : List (ℤ × ℤ × ℤ × ℤ) :=
  (dedupKeepFirst id (facts.filterMap fun r => r.date_achat)).map fun d =>
    (d, d % 100, (d / 100) % 100, d / 10000)

/-- Lines 94-107: the eight gold artifact names, in write order. -/
def goldArtifactNames : List String :=
  ["dim_client.csv", "dim_date.csv", "fact_purchases.csv", "agg_daily.csv",
   "agg_monthly.csv", "revenue_by_country.csv", "stats_by_product.csv", "kpis.csv"]

/-- Lines 113-119: the sequential persistence loop.  `put_object` either
succeeds (`ok name = true`) or raises, which aborts the loop and
propagates; artifacts already written stay written.  Returns the names
written and whether the loop completed. -/
def writeGold (ok : String → Bool) : List String → List String → List String × Bool
  | [], written => (written, true)
  | n :: ns, written =>
    if ok n then writeGold ok ns (written ++ [n]) else (written, false)

/-! ### Document normalizer (`transform_to_mongo_docs`, src/flows/mongo_db.py)

A gold CSV cell is a loosely-typed scalar. -/

inductive SVal where
  | null : SVal
  | int : ℤ → SVal
  | num : ℚ → SVal
  | str : String → SVal
deriving DecidableEq, Repr

/-- `pd.to_numeric(_, errors='coerce')` on one cell; string cells are
parsed as integer literals (the CSV loader has already turned numeric
text into numbers, so remaining strings are integral ids or garbage). -/
def toNumeric : SVal → SVal
  | SVal.null => SVal.null
  | SVal.int i => SVal.int i
  | SVal.num q => SVal.num q
  | SVal.str s =>
    match s.toInt? with
    | some i => SVal.int i
    | none => SVal.null

/-- Whether a post-`toNumeric` cell can be safely cast to `Int64`. -/
def int64Castable : SVal → Bool
  | SVal.null => true
  | SVal.int _ => true
  | SVal.num q => q.den == 1
  | SVal.str _ => false

def toInt64 : SVal → SVal
  | SVal.num q => SVal.int q.num
  | v => v

/-- Lines 66-69 and 73-76: `df['_id'] = pd.to_numeric(df['_id'],
errors='coerce').astype('Int64')` guarded by `try/except`: the cast
raises on a non-integral float, in which case the column is left
unchanged. -/
def coerceIdCol (vs : List SVal) : List SVal :=
  let nums := vs.map toNumeric
  if nums.all int64Castable then nums.map toInt64 else vs

/-- A gold dataset as seen by `clean_df`: named columns of scalar cells. -/
structure Df where
  cols : List (String × List SVal)
deriving DecidableEq, Repr

def colNames (df : Df) : List String := df.cols.map fun c => c.1

/-- Line 61: a column name counts as id-like when, case-insensitively, it
ends with "id", starts with "id_", or equals "id" (spelled on character
lists so that it evaluates inside the kernel). -/
def idLike (c : String) : Bool :=
  let l := (pyLower c).data
  List.isSuffixOf "id".data l || List.isPrefixOf "id_".data l || l == "id".data

def idCols (df : Df) : List String := (colNames df).filter idLike

/-- Lines 60-76 of `clean_df`: primary-key inference.  When exactly one
id-like column exists it is renamed to `_id` and coerced; otherwise the
dataframe keeps its columns, but a column already named `_id` is still
coerced by the `else` branch.  (The preceding whitespace / date / numeric
normalization steps of `clean_df` never change column names, so they
cannot affect this block.) -/
def cleanDfKey (df : Df) : Df :=
  match idCols df with
  | [c] =>
    Df.mk ((df.cols.map fun nv => if nv.1 = c then ("_id", nv.2) else nv).map
      fun nv => if nv.1 = "_id" then (nv.1, coerceIdCol nv.2) else nv)
  | _ =>
    Df.mk (df.cols.map fun nv => if nv.1 = "_id" then (nv.1, coerceIdCol nv.2) else nv)

/-- Line 112: `unique_key = '_id' if '_id' in df.columns else None`,
evaluated on the cleaned dataframe. -/
def uniqueKey (df : Df) : Option String :=
  if "_id" ∈ colNames (cleanDfKey df) then some "_id" else none

/-! ### Idempotent sync engine (`insert_data_to_mongodb`)

A MongoDB document: its `_id` key value (`none` models a null key - the
filter `{'_id': None}` matches documents whose key is null), its business
fields, and the system `_written_at` stamp.  The collection is the list of
its documents in insertion order. -/

structure MDoc where
  key : Option ℤ
  fields : List (String × SVal)
  ts : Option ℕ
deriving DecidableEq, Repr

/-- `$set` of a single field: overwrite the first binding of the name, or
append the field if absent. -/
def setField (k : String) (v : SVal) : List (String × SVal) → List (String × SVal)
  | [] => [(k, v)]
  | kv :: rest => if kv.1 = k then (k, v) :: rest else kv :: setField k v rest

/-- `$set` of a whole document's field set. -/
def setAll (old new : List (String × SVal)) : List (String × SVal) :=
  new.foldl (fun acc kv => setField kv.1 kv.2 acc) old

/-- Lines 133-134: `doc['_written_at'] = datetime.utcnow()`. -/
def stamp (t : ℕ) (d : MDoc) : MDoc := { d with ts := some t }

/-- Drop the system timestamp, leaving the business content. -/
def stripTs (d : MDoc) : MDoc := { d with ts := none }

/-- Effect of a matched `UpdateOne({key: v}, {'$set': doc})` on the
matched document. -/
def applySet (old new : MDoc) : MDoc :=
  { key := new.key, fields := setAll old.fields new.fields, ts := new.ts }

/-- Lines 137-144: `UpdateOne({unique_key: doc[unique_key]}, {'$set': doc},
upsert=True)`: update the first document with the same key in place, or
append the document when no key matches. -/
def upsertOne (d : MDoc) : List MDoc → List MDoc
  | [] => [d]
  | c :: cs => if c.key = d.key then applySet c d :: cs else c :: upsertOne d cs

/-- Lines 132-146, keyed branch of `insert_data_to_mongodb`: stamp every
document with the call's wall-clock time, then bulk-apply the upserts in
document order. -/
def syncKeyed (docs : List MDoc) (t : ℕ) (coll : List MDoc) : List MDoc :=
  docs.foldl (fun c d => upsertOne (stamp t d) c) coll

/-- Lines 148-157, keyless branch.  `insert_many(docs, ordered=False)`
inserts every individually-insertable document and raises if any failed
(`ok d` is the deterministic per-document success of the store); on the
exception the fallback loop re-runs `insert_one` per document, skipping
failures.  Documents are abstract (`α`) here: this path never inspects
them. -/
def insertManyAttempt {α : Type} (ok : α → Bool) (docs s : List α) : List α × Bool :=
  (s ++ docs.filter ok, docs.all ok)

def syncKeyless {α : Type} (ok : α → Bool) (docs s : List α) : List α :=
  let r := insertManyAttempt ok docs s
  if r.2 then r.1 else r.1 ++ docs.filter ok

/-! ### Concrete datasets used by witnesses and counterexamples -/

/-- A single valid purchase row. -/
def achatW : AchatRow :=
  { id_achat := some 1, id_client := some 1, date_achat := some 1,
    montant := some 5, produit := "p" }

/-- Six valid purchase rows (distinct ids and dates) whose amount column
is `[0,0,0,0,1,100]`: one cleaning pass drops the 100 via the 3·IQR rule,
and the recomputed quartiles of the surviving `[0,0,0,0,1]` collapse to 0,
so a second pass also drops the 1. -/
def achatsNonIdem : List AchatRow :=
  [{ id_achat := some 1, id_client := some 1, date_achat := some 1, montant := some 0, produit := "p" },
   { id_achat := some 2, id_client := some 1, date_achat := some 2, montant := some 0, produit := "p" },
   { id_achat := some 3, id_client := some 1, date_achat := some 3, montant := some 0, produit := "p" },
   { id_achat := some 4, id_client := some 1, date_achat := some 4, montant := some 0, produit := "p" },
   { id_achat := some 5, id_client := some 1, date_achat := some 5, montant := some 1, produit := "p" },
   { id_achat := some 6, id_client := some 1, date_achat := some 6, montant := some 100, produit := "p" }]

/-- Two rows for the same customer: a dated registration and a null one. -/
def clientA : ClientRow :=
  { id_client := some 1, nom := "a", email := "a", pays := "France", date_inscription := some 5 }

def clientB : ClientRow :=
  { id_client := some 1, nom := "b", email := "b", pays := "France", date_inscription := none }

/-- A gold dataset with two id-like columns, one of them literally `_id`. -/
def dfTwoIds : Df := Df.mk [("_id", [SVal.int 1]), ("id_client", [SVal.int 2])]

/-- A gold dataset with exactly one id-like column. -/
def dfOneId : Df := Df.mk [("id_client", [SVal.str "abc"]), ("montant", [SVal.num 3])]

/-- Two cleaned fact rows in consecutive months, the second with zero
revenue. -/
def factsW : List FactRow :=
  [{ id_achat := some 1, id_client := some 1, date_achat := some 101,
     montant := some 10, produit := "p", pays := none },
   { id_achat := some 2, id_client := some 1, date_achat := some 201,
     montant := some 0, produit := "p", pays := none }]

/-- Two keyed documents with distinct keys. -/
def mdocsW : List MDoc :=
  [{ key := some 1, fields := [("_id", SVal.int 1), ("montant", SVal.num 5)], ts := none },
   { key := some 2, fields := [("_id", SVal.int 2), ("montant", SVal.num 7)], ts := none }]

/-! ### Generic lemmas about the shared list operations -/

theorem mem_dedupKeepFirstAux {α κ : Type} [DecidableEq κ] (key : α → κ) :
    ∀ (l : List α) (seen : List κ) (a : α), a ∈ dedupKeepFirstAux key l seen → a ∈ l
  | [], _, _, h => by simp [dedupKeepFirstAux] at h
  | b :: bs, seen, a, h => by
    by_cases hk : key b ∈ seen
    · simp only [dedupKeepFirstAux, if_pos hk] at h
      exact List.mem_cons_of_mem _ (mem_dedupKeepFirstAux key bs seen a h)
    · simp only [dedupKeepFirstAux, if_neg hk, List.mem_cons] at h
      rcases h with h | h
      · exact h ▸ List.mem_cons_self _ _
      · exact List.mem_cons_of_mem _ (mem_dedupKeepFirstAux key bs _ a h)

theorem mem_dedupKeepLast {α κ : Type} [DecidableEq κ] (key : α → κ) (l : List α) (a : α)
    (h : a ∈ dedupKeepLast key l) : a ∈ l := by
  unfold dedupKeepLast at h
  rw [List.mem_reverse] at h
  have := mem_dedupKeepFirstAux key l.reverse [] a h
  rwa [List.mem_reverse] at this

theorem key_dedupKeepFirstAux_not_seen {α κ : Type} [DecidableEq κ] (key : α → κ) :
    ∀ (l : List α) (seen : List κ) (k : κ),
      k ∈ (dedupKeepFirstAux key l seen).map key → k ∉ seen
  | [], _, _, h => by simp [dedupKeepFirstAux] at h
  | b :: bs, seen, k, h => by
    by_cases hk : key b ∈ seen
    · rw [dedupKeepFirstAux, if_pos hk] at h
      exact key_dedupKeepFirstAux_not_seen key bs seen k h
    · rw [dedupKeepFirstAux, if_neg hk] at h
      simp only [List.map_cons, List.mem_cons] at h
      rcases h with h | h
      · exact h ▸ hk
      · have := key_dedupKeepFirstAux_not_seen key bs _ k h
        intro hs
        exact this (List.mem_cons_of_mem _ hs)

theorem keys_dedupKeepFirstAux_nodup {α κ : Type} [DecidableEq κ] (key : α → κ) :
    ∀ (l : List α) (seen : List κ), ((dedupKeepFirstAux key l seen).map key).Nodup
  | [], _ => by simp [dedupKeepFirstAux]
  | b :: bs, seen => by
    by_cases hk : key b ∈ seen
    · rw [dedupKeepFirstAux, if_pos hk]
      exact keys_dedupKeepFirstAux_nodup key bs seen
    · rw [dedupKeepFirstAux, if_neg hk]
      simp only [List.map_cons, List.nodup_cons]
      refine ⟨fun hmem => ?_, keys_dedupKeepFirstAux_nodup key bs _⟩
      exact key_dedupKeepFirstAux_not_seen key bs _ _ hmem (List.mem_cons_self _ _)

theorem dedupKeepFirstAux_eq_self {α κ : Type} [DecidableEq κ] (key : α → κ) :
    ∀ (l : List α) (seen : List κ), ((l.map key).Nodup) →
      (∀ k ∈ l.map key, k ∉ seen) → dedupKeepFirstAux key l seen = l
  | [], _, _, _ => rfl
  | b :: bs, seen, hnd, hdisj => by
    have hb : key b ∉ seen := hdisj _ (by simp)
    rw [dedupKeepFirstAux, if_neg hb]
    simp only [List.map_cons, List.nodup_cons] at hnd
    refine congrArg _ (dedupKeepFirstAux_eq_self key bs _ hnd.2 ?_)
    intro k hk
    simp only [List.mem_cons, not_or]
    exact ⟨fun he => hnd.1 (he ▸ hk), hdisj _ (List.mem_cons_of_mem _ hk)⟩

theorem dedupKeepLast_idem {α κ : Type} [DecidableEq κ] (key : α → κ) (l : List α) :
    dedupKeepLast key (dedupKeepLast key l) = dedupKeepLast key l := by
  unfold dedupKeepLast
  rw [List.reverse_reverse, dedupKeepFirstAux_eq_self key _ []
    (keys_dedupKeepFirstAux_nodup key l.reverse []) (fun k _ => List.not_mem_nil k)]

theorem filter_dedupKeepFirstAux {α κ : Type} [DecidableEq κ] (key : α → κ) (v : κ) :
    ∀ (l : List α) (seen : List κ),
      (dedupKeepFirstAux key l seen).filter (fun a => decide (key a = v)) =
        if v ∈ seen then [] else (l.find? fun a => decide (key a = v)).toList
  | [], seen => by
    by_cases hv : v ∈ seen <;> simp [dedupKeepFirstAux, hv]
  | b :: bs, seen => by
    by_cases hk : key b ∈ seen
    · rw [dedupKeepFirstAux, if_pos hk, filter_dedupKeepFirstAux key v bs seen]
      by_cases hv : v ∈ seen
      · simp [hv]
      · have hbv : ¬ ((fun a => decide (key a = v)) b = true) := by
          simp only [decide_eq_true_eq]
          exact fun he => hv (he ▸ hk)
        rw [if_neg hv, if_neg hv, List.find?_cons_of_neg bs hbv]
    · rw [dedupKeepFirstAux, if_neg hk]
      by_cases hbv : key b = v
      · have hv : v ∉ seen := fun hs => hk (hbv ▸ hs)
        rw [List.filter_cons_of_pos (by simp [hbv]), filter_dedupKeepFirstAux key v bs _,
          if_pos (show v ∈ key b :: seen from List.mem_cons.2 (Or.inl hbv.symm)), if_neg hv,
          List.find?_cons_of_pos bs (by simp [hbv])]
        rfl
      · rw [List.filter_cons_of_neg (by simp [hbv]), filter_dedupKeepFirstAux key v bs _]
        by_cases hv : v ∈ seen
        · rw [if_pos (List.mem_cons_of_mem _ hv), if_pos hv]
        · have hnv : v ∉ key b :: seen := by
            simp only [List.mem_cons, not_or]
            exact ⟨fun h => hbv h.symm, hv⟩
          rw [if_neg hnv, if_neg hv, List.find?_cons_of_neg bs (by simp [hbv])]

theorem find?_eq_head?_filter {α : Type} (p : α → Bool) :
    ∀ l : List α, l.find? p = (l.filter p).head?
  | [] => rfl
  | a :: as => by
    by_cases h : p a = true
    · rw [List.find?_cons_of_pos as h, List.filter_cons_of_pos h]
      rfl
    · rw [List.find?_cons_of_neg as h, List.filter_cons_of_neg h]
      exact find?_eq_head?_filter p as

theorem toList_reverse_option {α : Type} (o : Option α) : o.toList.reverse = o.toList := by
  cases o <;> rfl

/-- Filtering the kept rows of `drop_duplicates(keep='last')` down to one
key value leaves exactly the last row of the list carrying it. -/
theorem filter_dedupKeepLast {α κ : Type} [DecidableEq κ] (key : α → κ) (v : κ) (l : List α) :
    (dedupKeepLast key l).filter (fun a => decide (key a = v)) =
      ((l.filter fun a => decide (key a = v)).getLast?).toList := by
  unfold dedupKeepLast
  rw [List.filter_reverse, filter_dedupKeepFirstAux, if_neg (List.not_mem_nil v),
    find?_eq_head?_filter, List.filter_reverse, List.head?_reverse, toList_reverse_option]

section SortFilter

variable {α : Type} (r : α → α → Prop) [DecidableRel r]

theorem orderedInsert_of_forall_rel (a : α) :
    ∀ (t : List α), (∀ x ∈ t, r a x) → List.orderedInsert r a t = a :: t
  | [], _ => rfl
  | c :: cs, h => by
    simp only [List.orderedInsert]
    rw [if_pos (h c (List.mem_cons_self _ _))]

theorem filter_orderedInsert (htr : ∀ x y z, r x y → r y z → r x z)
    (p : α → Bool) (a : α) :
    ∀ (s : List α), s.Sorted r →
      (List.orderedInsert r a s).filter p =
        if p a then List.orderedInsert r a (s.filter p) else s.filter p
  | [], _ => by
    by_cases h : p a = true <;>
      simp [List.orderedInsert, List.filter_cons, h]
  | b :: bs, hs => by
    have hbs : bs.Sorted r := hs.of_cons
    have hball : ∀ x ∈ bs, r b x := List.rel_of_sorted_cons hs
    by_cases hab : r a b
    · simp only [List.orderedInsert]
      rw [if_pos hab]
      by_cases hpa : p a = true
      · rw [if_pos hpa, List.filter_cons_of_pos hpa]
        by_cases hpb : p b = true
        · rw [List.filter_cons_of_pos hpb]
          simp only [List.orderedInsert]
          rw [if_pos hab]
        · rw [List.filter_cons_of_neg hpb]
          refine (orderedInsert_of_forall_rel r a _ ?_).symm
          intro x hx
          exact htr a b x hab (hball x (List.mem_of_mem_filter hx))
      · rw [if_neg hpa, List.filter_cons_of_neg hpa]
    · simp only [List.orderedInsert]
      rw [if_neg hab]
      by_cases hpb : p b = true
      · rw [List.filter_cons_of_pos hpb, List.filter_cons_of_pos hpb,
          filter_orderedInsert htr p a bs hbs]
        by_cases hpa : p a = true
        · rw [if_pos hpa, if_pos hpa]
          simp only [List.orderedInsert]
          rw [if_neg hab]
        · rw [if_neg hpa, if_neg hpa]
      · rw [List.filter_cons_of_neg hpb, List.filter_cons_of_neg hpb,
          filter_orderedInsert htr p a bs hbs]

theorem filter_insertionSort [IsTotal α r] [IsTrans α r] (p : α → Bool) :
    ∀ l : List α, (List.insertionSort r l).filter p = List.insertionSort r (l.filter p)
  | [] => rfl
  | a :: as => by
    simp only [List.insertionSort]
    rw [filter_orderedInsert r (fun x y z => IsTrans.trans x y z) p a _
        (List.sorted_insertionSort r as)]
    by_cases hpa : p a = true
    · rw [if_pos hpa, List.filter_cons_of_pos hpa]
      simp only [List.insertionSort]
      rw [filter_insertionSort p as]
    · rw [if_neg hpa, List.filter_cons_of_neg hpa, filter_insertionSort p as]

end SortFilter

/-! ### Facts about the purchase cleaner -/

theorem length_filterMap_eq {α β : Type} (f : α → Option β) :
    ∀ l : List α, (∀ a ∈ l, (f a).isSome = true) → (l.filterMap f).length = l.length
  | [], _ => rfl
  | a :: as, h => by
    obtain ⟨b, hb⟩ := Option.isSome_iff_exists.1 (h a (List.mem_cons_self _ _))
    rw [List.filterMap_cons, hb]
    simpa [hb] using length_filterMap_eq f as (fun x hx => h x (List.mem_cons_of_mem _ hx))

theorem mem_iqrFilterAchats {m : List AchatRow} {r : AchatRow}
    (h : r ∈ iqrFilterAchats m) : r ∈ m := by
  unfold iqrFilterAchats at h
  split at h
  · exact (List.mem_filter.1 h).1
  · exact (List.mem_filter.1 h).1

theorem cleanAchats_facts {l : List AchatRow} {r : AchatRow} (h : r ∈ cleanAchats l) :
    r ∈ iqrFilterAchats (dropNegAchats (dropNullAchats l))
    ∧ r ∈ dropNegAchats (dropNullAchats l)
    ∧ r.id_achat.isSome = true ∧ r.id_client.isSome = true
    ∧ r.date_achat.isSome = true ∧ r.montant.isSome = true
    ∧ ∀ m, r.montant = some m → 0 ≤ m := by
  have h1 : r ∈ iqrFilterAchats (dropNegAchats (dropNullAchats l)) := by
    have h0 := mem_dedupKeepLast _ _ _ h
    exact (List.perm_insertionSort achatDateLe _).mem_iff.1 h0
  have h2 : r ∈ dropNegAchats (dropNullAchats l) := mem_iqrFilterAchats h1
  have h3 := List.mem_filter.1 h2
  have h4 := List.mem_filter.1 h3.1
  have hnull := h4.2
  simp only [Bool.and_eq_true] at hnull
  refine ⟨h1, h2, hnull.1.1.1, hnull.1.1.2, hnull.1.2, hnull.2, ?_⟩
  intro m hm
  have := h3.2
  rw [hm] at this
  simpa using this

theorem iqrFilterAchats_bounds {m : List AchatRow} {r : AchatRow}
    (h : r ∈ iqrFilterAchats m) {mq : ℚ} (hmq : r.montant = some mq) :
    ∃ q1 q3, quantile (montants m) (mkRat 1 4) = some q1
      ∧ quantile (montants m) (mkRat 3 4) = some q3
      ∧ q1 - 3 * (q3 - q1) ≤ mq ∧ mq ≤ q3 + 3 * (q3 - q1) := by
  unfold iqrFilterAchats at h
  split at h
  case _ q1 q3 hq1 hq3 =>
    have hp := (List.mem_filter.1 h).2
    rw [hmq] at hp
    simp only [Bool.and_eq_true, decide_eq_true_eq] at hp
    exact ⟨q1, q3, hq1, hq3, hp.1, hp.2⟩
  case _ =>
    have hp := (List.mem_filter.1 h).2
    simp at hp

theorem quantile_of_ne_nil {xs : List ℚ} (h : xs ≠ []) (q : ℚ) :
    quantile xs q = some (quantileVal xs q) := if_neg h

theorem quantileVal_singleton (m q : ℚ) : quantileVal [m] q = m := by
  unfold quantileVal
  simp only [List.insertionSort, List.orderedInsert, List.length_cons, List.length_nil]
  have h0 : q * (((0 + 1 : ℕ) : ℚ) - 1) = 0 := by push_cast; ring
  rw [h0]
  have hf : (0 : ℚ).floor = 0 := rfl
  rw [hf]
  norm_num

theorem montants_base_isSome {l : List AchatRow} {r : AchatRow}
    (h : r ∈ dropNegAchats (dropNullAchats l)) : r.montant.isSome = true := by
  have h3 := List.mem_filter.1 h
  have h4 := List.mem_filter.1 h3.1
  have hnull := h4.2
  simp only [Bool.and_eq_true] at hnull
  exact hnull.2

theorem montants_base_nonneg {l : List AchatRow} {r : AchatRow}
    (h : r ∈ dropNegAchats (dropNullAchats l)) {m : ℚ} (hm : r.montant = some m) :
    0 ≤ m := by
  have h3 := (List.mem_filter.1 h).2
  rw [hm] at h3
  simpa using h3

/-- When at most one data point survives the null/negative drops, the IQR
filter removes nothing: both quantiles collapse onto the single amount. -/
theorem iqrFilterAchats_small (l : List AchatRow)
    (hlen : (montants (dropNegAchats (dropNullAchats l))).length < 2) :
    iqrFilterAchats (dropNegAchats (dropNullAchats l)) = dropNegAchats (dropNullAchats l) := by
  have hlen' : (dropNegAchats (dropNullAchats l)).length < 2 := by
    rw [← length_filterMap_eq (fun r => r.montant) _
      (fun a ha => montants_base_isSome ha)]
    exact hlen
  match hbase : dropNegAchats (dropNullAchats l) with
  | [] => rfl
  | [r] =>
    have hr : r ∈ dropNegAchats (dropNullAchats l) := by rw [hbase]; exact List.mem_cons_self _ _
    obtain ⟨m, hm⟩ := Option.isSome_iff_exists.1 (montants_base_isSome hr)
    have hms : montants [r] = [m] := by simp [montants, hm]
    unfold iqrFilterAchats
    rw [hms, quantile_of_ne_nil (by simp) (mkRat 1 4), quantile_of_ne_nil (by simp) (mkRat 3 4),
      quantileVal_singleton, quantileVal_singleton]
    simp [List.filter_cons, hm, sub_self, mul_zero, sub_zero, add_zero]
  | r1 :: r2 :: rest =>
    rw [hbase] at hlen'
    simp at hlen'
    omega

/-! ### Claim C2 -/

/-- C2: every row in the cleaned Purchase dataset has non-null
`purchase_id`, `customer_id`, `purchase_date` and `amount`, with
`amount >= 0` and `amount` inside `[Q1 - 3*IQR, Q3 + 3*IQR]`, the
quartiles being computed over the amount column surviving the
null/negative drops of that run; and when fewer than 2 data points
remain, the outlier filter removes nothing (the code's quantiles then
collapse onto the single surviving amount, which is equivalent to
skipping the filter). -/
theorem c2_clean_achats_bounds :
    (∀ (l : List AchatRow) (r : AchatRow), r ∈ cleanAchats l →
      r.id_achat.isSome = true ∧ r.id_client.isSome = true ∧ r.date_achat.isSome = true ∧
      ∃ m q1 q3, r.montant = some m ∧ 0 ≤ m
        ∧ quantile (montants (dropNegAchats (dropNullAchats l))) (mkRat 1 4) = some q1
        ∧ quantile (montants (dropNegAchats (dropNullAchats l))) (mkRat 3 4) = some q3
        ∧ q1 - 3 * (q3 - q1) ≤ m ∧ m ≤ q3 + 3 * (q3 - q1))
    ∧ ∀ l : List AchatRow,
        (montants (dropNegAchats (dropNullAchats l))).length < 2 →
        iqrFilterAchats (dropNegAchats (dropNullAchats l)) = dropNegAchats (dropNullAchats l) := by
  constructor
  · intro l r hr
    obtain ⟨h1, _h2, hida, hidc, hdate, hmont, hnn⟩ := cleanAchats_facts hr
    obtain ⟨m, hm⟩ := Option.isSome_iff_exists.1 hmont
    obtain ⟨q1, q3, hq1, hq3, hlo, hhi⟩ := iqrFilterAchats_bounds h1 hm
    exact ⟨hida, hidc, hdate, m, q1, q3, hm, hnn m hm, hq1, hq3, hlo, hhi⟩
  · intro l hlen
    exact iqrFilterAchats_small l hlen

/-- Witness for C2 at a one-row dataset. -/
theorem c2_clean_achats_bounds_witness :
    (achatW.id_achat.isSome = true ∧ achatW.id_client.isSome = true ∧
      achatW.date_achat.isSome = true ∧
      ∃ m q1 q3, achatW.montant = some m ∧ 0 ≤ m
        ∧ quantile (montants (dropNegAchats (dropNullAchats [achatW]))) (mkRat 1 4) = some q1
        ∧ quantile (montants (dropNegAchats (dropNullAchats [achatW]))) (mkRat 3 4) = some q3
        ∧ q1 - 3 * (q3 - q1) ≤ m ∧ m ≤ q3 + 3 * (q3 - q1))
    ∧ iqrFilterAchats (dropNegAchats (dropNullAchats [achatW])) =
        dropNegAchats (dropNullAchats [achatW]) :=
  ⟨c2_clean_achats_bounds.1 [achatW] achatW (by with_unfolding_all decide),
   c2_clean_achats_bounds.2 [achatW] (by with_unfolding_all decide)⟩

/-! ### Claim C5 -/

set_option maxRecDepth 10000 in
/-- C5 counterexample: the purchase cleaner is not idempotent.  On
`achatsNonIdem` the first pass keeps the five rows with amounts
`[0,0,0,0,1]`, but a second pass recomputes the quartiles (both 0) and
drops the amount-1 row as well, so cleaning its own output removes a
further row. -/
theorem c5_counterexample :
    cleanAchats (cleanAchats achatsNonIdem) ≠ cleanAchats achatsNonIdem
    ∧ (⟨some 5, some 1, some 5, some 1, "p"⟩ : AchatRow) ∈ cleanAchats achatsNonIdem
    ∧ (⟨some 5, some 1, some 5, some 1, "p"⟩ : AchatRow) ∉
        cleanAchats (cleanAchats achatsNonIdem) := by
  with_unfolding_all decide

/-- C5 amended: the deduplication stage is idempotent (deduplicating
already-deduplicated rows removes nothing), and rerunning the null and
negative drops on already-cleaned purchase data removes no rows; only the
re-computed IQR outlier filter can remove further rows on a second run,
so the cleaner as a whole is not idempotent. -/
theorem c5_dedup_and_drops_idempotent :
    (∀ l : List AchatRow,
      dedupKeepLast (fun r => r.id_achat) (dedupKeepLast (fun r => r.id_achat) l) =
        dedupKeepLast (fun r => r.id_achat) l)
    ∧ ∀ l : List AchatRow,
        dropNullAchats (cleanAchats l) = cleanAchats l
        ∧ dropNegAchats (cleanAchats l) = cleanAchats l := by
  constructor
  · exact fun l => dedupKeepLast_idem _ l
  · intro l
    constructor
    · apply List.filter_eq_self.mpr
      intro r hr
      obtain ⟨_, _, hida, hidc, hdate, hmont, _⟩ := cleanAchats_facts hr
      simp [hida, hidc, hdate, hmont]
    · apply List.filter_eq_self.mpr
      intro r hr
      obtain ⟨_, _, _, _, _, hmont, hnn⟩ := cleanAchats_facts hr
      obtain ⟨m, hm⟩ := Option.isSome_iff_exists.1 hmont
      simp only [hm]
      exact decide_eq_true (hnn m hm)

/-! ### Claim C6 -/

set_option maxRecDepth 4000 in
/-- C6 counterexample: for a customer with a dated registration followed
by a null-date duplicate, the code keeps the null-date row (NaT sorts
after every real date and `keep='last'` then picks it), while the claim's
rule (latest registration date wins) keeps the dated row. -/
theorem c6_counterexample :
    cleanClients [clientA, clientB] ≠ specLatestDateCleanClients [clientA, clientB]
    ∧ cleanClients [clientA, clientB] = [clientB]
    ∧ specLatestDateCleanClients [clientA, clientB] = [clientA]
    ∧ clientB.date_inscription = none ∧ clientA.date_inscription = some 5 := by
  with_unfolding_all decide

/-- C6 amended: the customer cleaner drops rows with null `customer_id`
and keeps, for each `customer_id`, the last element of the group under
the stable ascending sort by `registration_date` in which null dates sort
after all real dates - i.e. the latest-dated row with ties broken by
input order (last wins) when no duplicate has a null date, but the last
null-dated duplicate in input order whenever one exists. -/
theorem c6_clean_clients_kept_row (l : List ClientRow) (v : Option ℤ) :
    (cleanClients l).filter (fun r => decide (r.id_client = v)) =
      ((List.insertionSort clientDateLe
        ((dropNullClients (l.map normalizeClient)).filter
          fun r => decide (r.id_client = v))).getLast?).toList := by
  unfold cleanClients
  refine (filter_dedupKeepLast (fun r : ClientRow => r.id_client) v
    (List.insertionSort clientDateLe (dropNullClients (l.map normalizeClient)))).trans ?_
  rw [filter_insertionSort clientDateLe]

/-! ### Claim C9 -/

/-- C9: the gold aggregator is a total function and an empty purchase set
yields `Kpis = {total_revenue: 0, total_transactions: 0, avg_order_value: 0}`
(the mean guard avoids the division by zero) together with empty
purchase-derived artifacts, for any customer input. -/
theorem c9_empty_purchases (clients : List ClientRow) :
    mkFact [] clients = []
    ∧ kpis (mkFact [] clients) =
        { total_revenue := 0, total_transactions := 0, avg_order_value := 0 }
    ∧ dimDate (mkFact [] clients) = []
    ∧ aggDaily (mkFact [] clients) = []
    ∧ aggMonthlyRevenue (mkFact [] clients) = []
    ∧ aggMonthlyPct (mkFact [] clients) = []
    ∧ revenueByCountry (mkFact [] clients) = []
    ∧ statsByProduct (mkFact [] clients) = [] :=
  ⟨rfl, rfl, rfl, rfl, rfl, rfl, rfl, rfl⟩

/-! ### Claim C10 -/

theorem writeGold_eq (ok : String → Bool) :
    ∀ (ns w : List String), writeGold ok ns w = (w ++ ns.takeWhile ok, ns.all ok)
  | [], w => by simp [writeGold]
  | n :: ns, w => by
    by_cases h : ok n = true
    · rw [writeGold, if_pos h, writeGold_eq ok ns (w ++ [n])]
      simp [List.takeWhile_cons, h, List.all_cons]
    · rw [writeGold, if_neg h]
      simp [List.takeWhile_cons, Bool.eq_false_iff.2 h, List.all_cons,
        Bool.not_eq_true] at *

theorem takeWhile_eq_self_of_forall {α : Type} (p : α → Bool) :
    ∀ l : List α, (∀ a ∈ l, p a = true) → l.takeWhile p = l
  | [], _ => rfl
  | a :: as, h => by
    rw [List.takeWhile_cons, if_pos (h a (List.mem_cons_self _ _))]
    exact congrArg _ (takeWhile_eq_self_of_forall p as
      fun x hx => h x (List.mem_cons_of_mem _ hx))

set_option maxRecDepth 2000 in
/-- C10 counterexample: gold persistence is not all-or-nothing.  When the
third `put_object` fails, the run aborts with the first two artifacts
already written: the gold layer holds a nonempty strict subset of the
run's eight artifacts. -/
theorem c10_counterexample :
    (writeGold (fun n => n != "fact_purchases.csv") goldArtifactNames []).2 = false
    ∧ (writeGold (fun n => n != "fact_purchases.csv") goldArtifactNames []).1 =
        ["dim_client.csv", "dim_date.csv"]
    ∧ ["dim_client.csv", "dim_date.csv"] ≠ ([] : List String)
    ∧ ["dim_client.csv", "dim_date.csv"] ≠ goldArtifactNames := by
  with_unfolding_all decide

/-- C10 amended: the eight artifact writes are sequential with no
transaction: a run writes exactly the prefix of the artifact list before
the first failing write (so a mid-run failure leaves a partial gold
layer), and only a run in which every write succeeds persists all eight
artifacts. -/
theorem c10_sequential_writes (ok : String → Bool) :
    writeGold ok goldArtifactNames [] =
      (goldArtifactNames.takeWhile ok, goldArtifactNames.all ok)
    ∧ ((∀ n ∈ goldArtifactNames, ok n = true) →
        (writeGold ok goldArtifactNames []).1 = goldArtifactNames) := by
  constructor
  · simpa using writeGold_eq ok goldArtifactNames []
  · intro hall
    rw [writeGold_eq]
    simpa using takeWhile_eq_self_of_forall ok goldArtifactNames hall

/-- Witness for C10's amended theorem with an always-succeeding store. -/
theorem c10_sequential_writes_witness :
    writeGold (fun _ => true) goldArtifactNames [] =
      (goldArtifactNames.takeWhile (fun _ => true), goldArtifactNames.all (fun _ => true))
    ∧ (writeGold (fun _ => true) goldArtifactNames []).1 = goldArtifactNames :=
  ⟨(c10_sequential_writes (fun _ => true)).1,
   (c10_sequential_writes (fun _ => true)).2 (fun _ _ => rfl)⟩

/-! ### Claim C8 -/

/-- C8: on the keyless path, a clean bulk insert appends every document,
and running the sync twice appends them twice (no deduplication); when
the bulk insert fails, the store ends with the per-document retried
inserts - every individually-insertable document is present and no
failing document aborts the loop. -/
theorem c8_keyless_path {α : Type} (ok : α → Bool) (docs s : List α) :
    ((∀ d ∈ docs, ok d = true) →
      syncKeyless ok docs (syncKeyless ok docs s) = s ++ docs ++ docs)
    ∧ (¬ (∀ d ∈ docs, ok d = true) →
        syncKeyless ok docs s = (s ++ docs.filter ok) ++ docs.filter ok
        ∧ ∀ d ∈ docs, ok d = true → d ∈ syncKeyless ok docs s) := by
  have hsync : ∀ t : List α, syncKeyless ok docs t =
      if docs.all ok then t ++ docs
      else (t ++ docs.filter ok) ++ docs.filter ok := by
    intro t
    unfold syncKeyless insertManyAttempt
    by_cases h : docs.all ok = true
    · rw [if_pos h, if_pos h,
        List.filter_eq_self.mpr fun a ha => List.all_eq_true.1 h a ha]
    · rw [if_neg h, if_neg h]
  constructor
  · intro hall
    have hb : docs.all ok = true := List.all_eq_true.2 hall
    rw [hsync, hsync, if_pos hb, if_pos hb]
  · intro hnall
    have hnb : ¬ docs.all ok = true := fun hb => hnall (List.all_eq_true.1 hb)
    refine ⟨by rw [hsync, if_neg hnb], ?_⟩
    intro d hd hok
    rw [hsync, if_neg hnb]
    exact List.mem_append.2 (Or.inr (List.mem_filter.2 ⟨hd, hok⟩))

/-- Witness for C8: a clean double run duplicates `[1, 3]`, and a failing
bulk over `[1, 2, 3]` (document 2 rejected) still inserts 1 and 3. -/
theorem c8_keyless_path_witness :
    (syncKeyless (fun d : ℤ => d != 2) [1, 3] (syncKeyless (fun d : ℤ => d != 2) [1, 3] []) =
        [] ++ [1, 3] ++ [1, 3])
    ∧ (syncKeyless (fun d : ℤ => d != 2) [1, 2, 3] [] =
          ([] ++ List.filter (fun d : ℤ => d != 2) [1, 2, 3]) ++
            List.filter (fun d : ℤ => d != 2) [1, 2, 3]
        ∧ ∀ d ∈ [1, 2, 3], (fun d : ℤ => d != 2) d = true →
            d ∈ syncKeyless (fun d : ℤ => d != 2) [1, 2, 3] []) :=
  ⟨(c8_keyless_path _ [1, 3] []).1 (by decide),
   (c8_keyless_path _ [1, 2, 3] []).2 (by decide)⟩

/-! ### Claim C7 -/

theorem colNames_coerce_step (cols : List (String × List SVal)) :
    (cols.map fun nv => if nv.1 = "_id" then (nv.1, coerceIdCol nv.2) else nv).map
        (fun c => c.1) = cols.map fun c => c.1 := by
  rw [List.map_map]
  refine List.map_congr_left fun nv _ => ?_
  by_cases h : nv.1 = "_id" <;> simp [Function.comp, h]

theorem colNames_rename_step (c : String) (cols : List (String × List SVal)) :
    (cols.map fun nv => if nv.1 = c then ("_id", nv.2) else nv).map (fun x => x.1) =
      (cols.map fun x => x.1).map fun n => if n = c then "_id" else n := by
  rw [List.map_map, List.map_map]
  refine List.map_congr_left fun nv _ => ?_
  by_cases h : nv.1 = c <;> simp [Function.comp, h]

set_option maxRecDepth 2000 in
/-- C7 counterexample: with the two id-like columns `_id` and `id_client`
no renaming happens, yet the `else` branch still finds the literal `_id`
column and `sync` takes the keyed path - the claim's "zero or more than
one id-like columns → keyless insert path" is false. -/
theorem c7_counterexample :
    uniqueKey dfTwoIds = some "_id"
    ∧ (idCols dfTwoIds).length = 2
    ∧ idLike "_id" = true ∧ idLike "id_client" = true := by
  with_unfolding_all decide

/-- C7 amended: key inference collects the case-insensitive id-like
columns (suffix "id", literal prefix "id_", or equal to "id"); exactly
one such column is renamed to `_id` and integer-coerced, and the keyed
path is chosen if and only if the cleaned dataframe then has a `_id`
column - which happens either when exactly one id-like column existed,
or when a column literally named `_id` was already present (even
alongside other id-like columns); only otherwise is the keyless insert
path used. -/
theorem c7_key_inference (df : Df) :
    (uniqueKey df = some "_id" ↔ ((idCols df).length = 1 ∨ "_id" ∈ colNames df))
    ∧ ∀ c, idCols df = [c] →
        colNames (cleanDfKey df) = (colNames df).map fun n => if n = c then "_id" else n := by
  rcases hic : idCols df with _ | ⟨c, _ | ⟨c2, cs⟩⟩
  · have hclean : colNames (cleanDfKey df) = colNames df := by
      unfold cleanDfKey
      rw [hic]
      exact colNames_coerce_step df.cols
    constructor
    · unfold uniqueKey
      rw [hclean]
      by_cases h : "_id" ∈ colNames df <;> simp [h]
    · intro c hc
      simp at hc
  · have hcmem : c ∈ colNames df := by
      have h1 : c ∈ idCols df := by rw [hic]; exact List.mem_cons_self _ _
      unfold idCols at h1
      exact List.mem_of_mem_filter h1
    have hclean : colNames (cleanDfKey df) =
        (colNames df).map fun n => if n = c then "_id" else n := by
      unfold cleanDfKey
      rw [hic]
      show ((df.cols.map fun nv => if nv.1 = c then ("_id", nv.2) else nv).map
        fun nv => if nv.1 = "_id" then (nv.1, coerceIdCol nv.2) else nv).map (fun x => x.1) = _
      rw [colNames_coerce_step, colNames_rename_step]
      rfl
    constructor
    · unfold uniqueKey
      rw [hclean]
      have hid : "_id" ∈ (colNames df).map fun n => if n = c then "_id" else n :=
        List.mem_map.2 ⟨c, hcmem, by simp⟩
      rw [if_pos hid]
      simp
    · intro c' hc'
      obtain rfl : c = c' := by simpa using hc'
      exact hclean
  · have hclean : colNames (cleanDfKey df) = colNames df := by
      unfold cleanDfKey
      rw [hic]
      exact colNames_coerce_step df.cols
    constructor
    · unfold uniqueKey
      rw [hclean]
      by_cases h : "_id" ∈ colNames df <;> simp [h, List.length_cons]
    · intro c' hc'
      simp at hc'

set_option maxRecDepth 2000 in
/-- Witness for C7 on a dataset with exactly one id-like column. -/
theorem c7_key_inference_witness :
    (uniqueKey dfOneId = some "_id" ↔ ((idCols dfOneId).length = 1 ∨ "_id" ∈ colNames dfOneId))
    ∧ colNames (cleanDfKey dfOneId) =
        (colNames dfOneId).map fun n => if n = "id_client" then "_id" else n :=
  ⟨(c7_key_inference dfOneId).1,
   (c7_key_inference dfOneId).2 "id_client" (by with_unfolding_all decide)⟩

/-! ### Claim C4 -/

theorem pctChange_length : ∀ (prev : Option ℚ) (revs : List ℚ),
    (pctChange prev revs).length = revs.length
  | _, [] => rfl
  | _, _ :: rs => by
    rw [pctChange, List.length_cons, List.length_cons, pctChange_length]

theorem prevAt_cons (prev : Option ℚ) (r : ℚ) (rs : List ℚ) (n : ℕ) :
    prevAt prev (r :: rs) (n + 1) = prevAt (some r) rs n := by
  cases n <;> rfl

/-- Dividing by a zero revenue always persists as null: `0/0` is NaN and
`x/0` is an infinity that the `replace` step turns into NaN. -/
theorem persist_div_zero (a : ℚ) :
    persistPF (replaceInfNan (pfDiv (PFloat.val a) (PFloat.val 0))) = none := by
  simp only [pfDiv, if_pos rfl]
  by_cases h0 : a = 0
  · rw [if_pos h0]
    rfl
  · rw [if_neg h0]
    by_cases hlt : 0 < a
    · rw [if_pos hlt]
      rfl
    · rw [if_neg hlt]
      rfl

/-- Dividing by a nonzero revenue persists the exact rational quotient. -/
theorem persist_div_nonzero (a b : ℚ) (hb : b ≠ 0) :
    persistPF (replaceInfNan (pfDiv (pfSub (PFloat.val a) (PFloat.val b)) (PFloat.val b))) =
      some ((a - b) / b) := by
  show persistPF (replaceInfNan (pfDiv (PFloat.val (a - b)) (PFloat.val b))) = _
  simp only [pfDiv, if_neg hb]
  rfl

theorem pctChange_spec : ∀ (revs : List ℚ) (prev : Option ℚ) (i : ℕ), i < revs.length →
    (((pctChange prev revs).getD i none = none) ↔
      (prevAt prev revs i = none ∨ prevAt prev revs i = some 0))
    ∧ ∀ q, (pctChange prev revs).getD i none = some q →
        ∃ p, prevAt prev revs i = some p ∧ q = (revs.getD i 0 - p) / p
  | [], _, i, hi => absurd hi (by simp)
  | r :: rs, prev, 0, _ => by
    have hhead : (pctChange prev (r :: rs)).getD 0 none =
        persistPF (replaceInfNan (pfDiv (pfSub (PFloat.val r) (pfOfOpt prev)) (pfOfOpt prev))) :=
      rfl
    cases prev with
    | none =>
      constructor
      · rw [hhead]
        simp [pfOfOpt, pfSub, pfDiv, replaceInfNan, persistPF, prevAt]
      · intro q hq
        rw [hhead] at hq
        simp [pfOfOpt, pfSub, pfDiv, replaceInfNan, persistPF] at hq
    | some p =>
      by_cases hp : p = 0
      · subst hp
        constructor
        · rw [hhead,
            show pfSub (PFloat.val r) (pfOfOpt (some 0)) = PFloat.val (r - 0) from rfl,
            show pfOfOpt (some (0 : ℚ)) = PFloat.val 0 from rfl, persist_div_zero (r - 0)]
          simp [prevAt]
        · intro q hq
          rw [hhead,
            show pfSub (PFloat.val r) (pfOfOpt (some 0)) = PFloat.val (r - 0) from rfl,
            show pfOfOpt (some (0 : ℚ)) = PFloat.val 0 from rfl, persist_div_zero (r - 0)] at hq
          exact absurd hq (by simp)
      · constructor
        · rw [hhead, show pfOfOpt (some p) = PFloat.val p from rfl, persist_div_nonzero r p hp]
          simp [prevAt, hp]
        · intro q hq
          rw [hhead, show pfOfOpt (some p) = PFloat.val p from rfl,
            persist_div_nonzero r p hp] at hq
          obtain rfl : (r - p) / p = q := by simpa using hq
          exact ⟨p, by simp [prevAt], by simp⟩
  | r :: rs, prev, n + 1, hi => by
    have hn : n < rs.length := by simpa using hi
    have ih := pctChange_spec rs (some r) n hn
    rw [pctChange]
    constructor
    · rw [List.getD_cons_succ, prevAt_cons]
      exact ih.1
    · intro q hq
      rw [List.getD_cons_succ] at hq
      obtain ⟨p, hp, hq'⟩ := ih.2 q hq
      exact ⟨p, by rw [prevAt_cons]; exact hp, by rw [List.getD_cons_succ]; exact hq'⟩

/-- C4: a persisted `pct_change` cell of `AggMonthly` is null exactly
when the row has no predecessor (`shift(1)` gives NaN for the first row;
reading "the prior month is absent" as "the row has no predecessor in the
sorted monthly table", which is what `shift` computes) or the
predecessor's revenue is zero (division yields `±inf` or NaN, the
`replace` step maps infinities to NaN, and NaN persists as null);
otherwise the cell holds the exact rational `(rev - prev) / prev`, so the
persisted column - of type `Option ℚ` - never contains a NaN or infinite
value and the computation is total. -/
theorem c4_pct_change_null_iff (facts : List FactRow) (i : ℕ)
    (hi : i < (aggMonthlyPct facts).length) :
    ((aggMonthlyPct facts).getD i none = none ↔
      (i = 0 ∨ ((aggMonthlyRevenue facts).map fun p => p.2).getD (i - 1) 0 = 0))
    ∧ ∀ q, (aggMonthlyPct facts).getD i none = some q →
        q = (((aggMonthlyRevenue facts).map fun p => p.2).getD i 0 -
              ((aggMonthlyRevenue facts).map fun p => p.2).getD (i - 1) 0) /
            ((aggMonthlyRevenue facts).map fun p => p.2).getD (i - 1) 0 := by
  have hi' : i < ((aggMonthlyRevenue facts).map fun p => p.2).length := by
    unfold aggMonthlyPct at hi
    rwa [pctChange_length] at hi
  obtain ⟨hiff, hval⟩ :=
    pctChange_spec ((aggMonthlyRevenue facts).map fun p => p.2) none i hi'
  constructor
  · refine (hiff.trans ?_)
    by_cases h0 : i = 0 <;> simp [prevAt, h0]
  · intro q hq
    obtain ⟨p, hp, hq'⟩ := hval q hq
    by_cases h0 : i = 0
    · rw [prevAt, if_pos h0] at hp
      exact absurd hp (by simp)
    · rw [prevAt, if_neg h0] at hp
      obtain rfl : ((aggMonthlyRevenue facts).map fun p => p.2).getD (i - 1) 0 = p := by
        simpa using hp
      exact hq'

set_option maxRecDepth 4000 in
/-- Witness for C4 at the second month of `factsW` (prior revenue 10, so
the cell is non-null and equals `(0 - 10) / 10`). -/
theorem c4_pct_change_null_iff_witness :
    ((aggMonthlyPct factsW).getD 1 none = none ↔
      (1 = 0 ∨ ((aggMonthlyRevenue factsW).map fun p => p.2).getD (1 - 1) 0 = 0))
    ∧ ∀ q, (aggMonthlyPct factsW).getD 1 none = some q →
        q = (((aggMonthlyRevenue factsW).map fun p => p.2).getD 1 0 -
              ((aggMonthlyRevenue factsW).map fun p => p.2).getD (1 - 1) 0) /
            ((aggMonthlyRevenue factsW).map fun p => p.2).getD (1 - 1) 0 :=
  c4_pct_change_null_iff factsW 1 (by with_unfolding_all decide)

/-! ### Claim C3 -/

theorem sumMont_nil : sumMont [] = 0 := rfl

theorem sumMont_cons (r : FactRow) (l : List FactRow) :
    sumMont (r :: l) = (r.montant).getD 0 + sumMont l := by
  unfold sumMont
  cases hm : r.montant <;> simp [List.filterMap_cons, hm]

theorem sum_map_zero_q (ks : List ℤ) : (ks.map fun _ => (0 : ℚ)).sum = 0 := by
  induction ks with
  | nil => rfl
  | cons k ks ih => simp [ih]

theorem sum_map_add_q (ks : List ℤ) (f g : ℤ → ℚ) :
    (ks.map fun k => f k + g k).sum = (ks.map f).sum + (ks.map g).sum := by
  induction ks with
  | nil => simp
  | cons k ks ih => simp [ih]; ring

theorem sum_map_ite_zero (d : ℤ) (x : ℚ) :
    ∀ ks : List ℤ, d ∉ ks → (ks.map fun k => if d = k then x else 0).sum = 0
  | [], _ => rfl
  | k :: ks, hd => by
    have hdk : ¬ d = k := fun he => hd (he ▸ List.mem_cons_self _ _)
    simp only [List.map_cons, List.sum_cons, if_neg hdk]
    rw [sum_map_ite_zero d x ks fun h => hd (List.mem_cons_of_mem _ h)]
    ring

theorem sum_map_ite (d : ℤ) (x : ℚ) :
    ∀ ks : List ℤ, ks.Nodup → d ∈ ks → (ks.map fun k => if d = k then x else 0).sum = x
  | [], _, hd => absurd hd (List.not_mem_nil d)
  | k :: ks, hnd, hd => by
    simp only [List.nodup_cons] at hnd
    by_cases hdk : d = k
    · subst hdk
      rw [List.map_cons, List.sum_cons, sum_map_ite_zero d x ks hnd.1, if_pos rfl, add_zero]
    · have hdks : d ∈ ks := by
        rcases List.mem_cons.1 hd with h | h
        · exact absurd h hdk
        · exact h
      rw [List.map_cons, List.sum_cons, if_neg hdk, sum_map_ite d x ks hnd.2 hdks, zero_add]

theorem key_mem_dedupKeepFirstAux {α κ : Type} [DecidableEq κ] (key : α → κ) :
    ∀ (l : List α) (seen : List κ) (a : α), a ∈ l →
      key a ∈ seen ∨ key a ∈ (dedupKeepFirstAux key l seen).map key
  | [], _, a, h => absurd h (List.not_mem_nil a)
  | b :: bs, seen, a, h => by
    by_cases hk : key b ∈ seen
    · rw [dedupKeepFirstAux, if_pos hk]
      rcases List.mem_cons.1 h with rfl | h
      · exact Or.inl hk
      · exact key_mem_dedupKeepFirstAux key bs seen a h
    · rw [dedupKeepFirstAux, if_neg hk]
      rcases List.mem_cons.1 h with rfl | h
      · exact Or.inr (by simp)
      · rcases key_mem_dedupKeepFirstAux key bs (key b :: seen) a h with hs | hs
        · rcases List.mem_cons.1 hs with he | hs
          · exact Or.inr (by simp [he])
          · exact Or.inl hs
        · exact Or.inr (by simp [hs])

/-- Partitioning a fact list over a complete duplicate-free key list and
summing the per-group revenues recovers the total revenue. -/
theorem sum_fiberwise_dates :
    ∀ (l : List FactRow) (ks : List ℤ), ks.Nodup →
      (∀ r ∈ l, ∃ dt, r.date_achat = some dt ∧ dt ∈ ks) →
      (ks.map fun k => sumMont (l.filter fun r => r.date_achat == some k)).sum = sumMont l
  | [], ks, _, _ => by
    simp only [List.filter_nil]
    rw [show (fun k : ℤ => sumMont []) = fun _ : ℤ => (0 : ℚ) from rfl, sum_map_zero_q]
    rfl
  | r :: rs, ks, hnd, hcov => by
    obtain ⟨dt, hdt, hdtk⟩ := hcov r (List.mem_cons_self _ _)
    have hpt : ∀ k : ℤ, sumMont ((r :: rs).filter fun x => x.date_achat == some k) =
        (if dt = k then (r.montant).getD 0 else 0) +
          sumMont (rs.filter fun x => x.date_achat == some k) := by
      intro k
      rw [List.filter_cons]
      by_cases hk : dt = k
      · subst hk
        rw [if_pos (by simp [hdt]), if_pos rfl, sumMont_cons]
      · rw [if_neg (by simp [hdt, hk]), if_neg hk, zero_add]
    calc (ks.map fun k => sumMont ((r :: rs).filter fun x => x.date_achat == some k)).sum
        = (ks.map fun k => (if dt = k then (r.montant).getD 0 else 0) +
            sumMont (rs.filter fun x => x.date_achat == some k)).sum := by
          exact congrArg List.sum (List.map_congr_left fun k _ => hpt k)
      _ = (ks.map fun k => if dt = k then (r.montant).getD 0 else 0).sum +
            (ks.map fun k => sumMont (rs.filter fun x => x.date_achat == some k)).sum :=
          sum_map_add_q ks _ _
      _ = (r.montant).getD 0 + sumMont rs := by
          rw [sum_map_ite dt _ ks hnd hdtk,
            sum_fiberwise_dates rs ks hnd
              fun x hx => hcov x (List.mem_cons_of_mem _ hx)]
      _ = sumMont (r :: rs) := (sumMont_cons r rs).symm

/-- C3: the revenue column of `AggDaily` sums exactly (over `ℚ`) to the
`total_revenue` KPI for every non-empty cleaned purchase snapshot (all
dates non-null, as silver cleaning guarantees): both are computed from
the same `FactPurchase` snapshot, and `groupby('date')` partitions it. -/
theorem c3_daily_revenue_total (facts : List FactRow)
    (hne : facts ≠ [])
    (hdates : ∀ r ∈ facts, r.date_achat.isSome = true) :
    ((aggDaily facts).map fun row => row.revenue).sum = (kpis facts).total_revenue := by
  have hnd : (dedupKeepFirst id (facts.filterMap fun r => r.date_achat)).Nodup := by
    have := keys_dedupKeepFirstAux_nodup (id : ℤ → ℤ) (facts.filterMap fun r => r.date_achat) []
    simpa using this
  have hcov : ∀ r ∈ facts, ∃ dt, r.date_achat = some dt ∧
      dt ∈ dedupKeepFirst id (facts.filterMap fun r => r.date_achat) := by
    intro r hr
    obtain ⟨dt, hdt⟩ := Option.isSome_iff_exists.1 (hdates r hr)
    refine ⟨dt, hdt, ?_⟩
    have hmem : dt ∈ facts.filterMap fun r => r.date_achat :=
      List.mem_filterMap.2 ⟨r, hr, hdt⟩
    have := key_mem_dedupKeepFirstAux (id : ℤ → ℤ)
      (facts.filterMap fun r => r.date_achat) [] dt hmem
    rcases this with h | h
    · exact absurd h (List.not_mem_nil _)
    · simpa using h
  calc ((aggDaily facts).map fun row => row.revenue).sum
      = ((sortedDistinctInts (facts.filterMap fun r => r.date_achat)).map
          fun dt => sumMont (dateGroup dt facts)).sum := by
        unfold aggDaily
        rw [List.map_map]
        rfl
    _ = ((dedupKeepFirst id (facts.filterMap fun r => r.date_achat)).map
          fun dt => sumMont (dateGroup dt facts)).sum :=
        ((List.perm_insertionSort _ _).map fun dt => sumMont (dateGroup dt facts)).sum_eq
    _ = sumMont facts :=
        sum_fiberwise_dates facts _ hnd hcov
    _ = (kpis facts).total_revenue := rfl

/-- Witness for C3 on the two-row snapshot `factsW`. -/
theorem c3_daily_revenue_total_witness :
    ((aggDaily factsW).map fun row => row.revenue).sum = (kpis factsW).total_revenue :=
  c3_daily_revenue_total factsW (by decide) (by decide)

/-! ### Claim C1 -/

theorem setField_self (k : String) (v : SVal) :
    ∀ f : List (String × SVal), (k, v) ∈ f → (f.map Prod.fst).Nodup → setField k v f = f
  | [], h, _ => absurd h (List.not_mem_nil _)
  | kv :: rest, h, hnd => by
    simp only [List.map_cons, List.nodup_cons] at hnd
    rcases List.mem_cons.1 h with heq | hmem
    · rw [setField, if_pos (congrArg Prod.fst heq.symm), heq]
    · have hkrest : k ∈ rest.map Prod.fst := List.mem_map.2 ⟨(k, v), hmem, rfl⟩
      by_cases hk : kv.1 = k
      · exact absurd (hk ▸ hkrest) hnd.1
      · rw [setField, if_neg hk]
        exact congrArg _ (setField_self k v rest hmem hnd.2)

theorem setAll_self (f : List (String × SVal)) (hnd : (f.map Prod.fst).Nodup) :
    setAll f f = f := by
  have haux : ∀ g : List (String × SVal), (∀ kv ∈ g, kv ∈ f) →
      g.foldl (fun acc kv => setField kv.1 kv.2 acc) f = f := by
    intro g
    induction g with
    | nil => intro _; rfl
    | cons kv tl ih =>
      intro hsub
      rw [List.foldl_cons, setField_self kv.1 kv.2 f
          (by simpa using hsub kv (List.mem_cons_self _ _)) hnd]
      exact ih fun x hx => hsub x (List.mem_cons_of_mem _ hx)
  exact haux f fun _ h => h

theorem applySet_stamp (d : MDoc) (t t' : ℕ) (hf : (d.fields.map Prod.fst).Nodup) :
    applySet (stamp t' d) (stamp t d) = stamp t d := by
  unfold applySet stamp
  simp [setAll_self d.fields hf]

theorem upsertOne_no_match (d : MDoc) :
    ∀ c : List MDoc, (∀ e ∈ c, e.key ≠ d.key) → upsertOne d c = c ++ [d]
  | [], _ => rfl
  | e :: es, h => by
    rw [upsertOne, if_neg (h e (List.mem_cons_self _ _)), List.cons_append]
    exact congrArg _ (upsertOne_no_match d es fun x hx => h x (List.mem_cons_of_mem _ hx))

theorem upsertOne_append (d : MDoc) :
    ∀ (pre c : List MDoc), (∀ e ∈ pre, e.key ≠ d.key) →
      upsertOne d (pre ++ c) = pre ++ upsertOne d c
  | [], _, _ => rfl
  | e :: pre, c, h => by
    rw [List.cons_append, upsertOne, if_neg (h e (List.mem_cons_self _ _)), List.cons_append]
    exact congrArg _ (upsertOne_append d pre c fun x hx => h x (List.mem_cons_of_mem _ hx))

theorem syncKeyed_fresh (t : ℕ) :
    ∀ (docs c0 : List MDoc),
      ((docs.map fun d => d.key).Nodup) →
      (∀ e ∈ c0, ∀ d ∈ docs, e.key ≠ d.key) →
      syncKeyed docs t c0 = c0 ++ docs.map (stamp t)
  | [], c0, _, _ => by simp [syncKeyed]
  | d :: ds, c0, hnd, hdisj => by
    simp only [List.map_cons, List.nodup_cons] at hnd
    show List.foldl (fun c x => upsertOne (stamp t x) c) (upsertOne (stamp t d) c0) ds = _
    rw [upsertOne_no_match (stamp t d) c0 fun e he =>
      hdisj e he d (List.mem_cons_self _ _)]
    have hdisj' : ∀ e ∈ c0 ++ [stamp t d], ∀ d' ∈ ds, e.key ≠ d'.key := by
      intro e he d' hd'
      rcases List.mem_append.1 he with he | he
      · exact hdisj e he d' (List.mem_cons_of_mem _ hd')
      · have heq : e = stamp t d := by simpa using he
        subst heq
        show d.key ≠ d'.key
        intro hdd
        exact hnd.1 (hdd ▸ List.mem_map.2 ⟨d', hd', rfl⟩)
    calc List.foldl (fun c x => upsertOne (stamp t x) c) (c0 ++ [stamp t d]) ds
        = syncKeyed ds t (c0 ++ [stamp t d]) := rfl
      _ = c0 ++ [stamp t d] ++ ds.map (stamp t) :=
          syncKeyed_fresh t ds (c0 ++ [stamp t d]) hnd.2 hdisj'
      _ = c0 ++ (d :: ds).map (stamp t) := by
          rw [List.append_assoc]
          rfl

theorem syncKeyed_update (t t' : ℕ) :
    ∀ (docs pre : List MDoc),
      (((pre.map fun d => d.key) ++ docs.map fun d => d.key).Nodup) →
      (∀ d ∈ docs, (d.fields.map Prod.fst).Nodup) →
      syncKeyed docs t (pre ++ docs.map (stamp t')) = pre ++ docs.map (stamp t)
  | [], pre, _, _ => by simp [syncKeyed]
  | d :: ds, pre, hnd, hf => by
    have hpre_d : ∀ e ∈ pre, e.key ≠ (stamp t d).key := by
      intro e he
      have hdisj := (List.nodup_append.1 hnd).2.2
      intro hke
      exact hdisj (List.mem_map.2 ⟨e, he, rfl⟩)
        (by simpa using Or.inl (show e.key = d.key from hke))
    show List.foldl (fun c x => upsertOne (stamp t x) c)
      (upsertOne (stamp t d) (pre ++ stamp t' d :: ds.map (stamp t'))) ds = _
    rw [upsertOne_append (stamp t d) pre _ hpre_d,
      upsertOne, if_pos (show (stamp t' d).key = (stamp t d).key from rfl),
      applySet_stamp d t t' (hf d (List.mem_cons_self _ _))]
    have hnd' : (((pre ++ [stamp t d]).map fun x => x.key) ++ ds.map fun x => x.key).Nodup := by
      have : ((pre ++ [stamp t d]).map fun x => x.key) = (pre.map fun x => x.key) ++ [d.key] := by
        simp [stamp]
      rw [this, List.append_assoc]
      simpa using hnd
    have hmain := syncKeyed_update t t' ds (pre ++ [stamp t d]) hnd'
      fun x hx => hf x (List.mem_cons_of_mem _ hx)
    rw [show List.foldl (fun c x => upsertOne (stamp t x) c)
        (pre ++ stamp t d :: ds.map (stamp t')) ds =
        syncKeyed ds t ((pre ++ [stamp t d]) ++ ds.map (stamp t')) from by
          rw [List.append_assoc]
          rfl,
      hmain, List.append_assoc]
    rfl

theorem length_filter_key_nodup :
    ∀ (docs : List MDoc) (v : Option ℤ),
      ((docs.map fun d => d.key).Nodup) → v ∈ docs.map (fun d => d.key) →
      (docs.filter fun d => decide (d.key = v)).length = 1
  | [], v, _, hv => absurd hv (by simp)
  | d :: ds, v, hnd, hv => by
    simp only [List.map_cons, List.nodup_cons] at hnd
    by_cases hdv : d.key = v
    · rw [List.filter_cons_of_pos (by simp [hdv]),
        List.filter_eq_nil_iff.2 ?_, List.length_cons, List.length_nil]
      intro e he
      simp only [decide_eq_true_eq]
      intro hev
      exact hnd.1 (hdv ▸ hev ▸ List.mem_map.2 ⟨e, he, rfl⟩)
    · have hvds : v ∈ ds.map fun d => d.key := by
        rcases List.mem_cons.1 hv with h | h
        · exact absurd h.symm hdv
        · exact h
      rw [List.filter_cons_of_neg (by simp [hdv])]
      exact length_filter_key_nodup ds v hnd.2 hvds

/-- C1: starting from an empty collection, running the keyed sync twice
with the same documents (distinct inferred keys, well-formed field sets)
leaves exactly one document per key, exactly as many documents as rows,
and the two runs' collections agree once the `_written_at` stamp is
stripped - only the timestamp differs between the runs. -/
theorem c1_keyed_sync_idempotent (docs : List MDoc) (t1 t2 : ℕ)
    (hkeys : ((docs.map fun d => d.key).Nodup))
    (hfields : ∀ d ∈ docs, (d.fields.map Prod.fst).Nodup) :
    ((syncKeyed docs t2 (syncKeyed docs t1 [])).map stripTs =
        (syncKeyed docs t1 []).map stripTs)
    ∧ (∀ v ∈ docs.map fun d => d.key,
        ((syncKeyed docs t2 (syncKeyed docs t1 [])).filter
          fun d => decide (d.key = v)).length = 1)
    ∧ (syncKeyed docs t2 (syncKeyed docs t1 [])).length = docs.length := by
  have h1 : syncKeyed docs t1 [] = docs.map (stamp t1) := by
    simpa using syncKeyed_fresh t1 docs [] hkeys (by simp)
  have h2 : syncKeyed docs t2 (docs.map (stamp t1)) = docs.map (stamp t2) := by
    simpa using syncKeyed_update t2 t1 docs [] (by simpa using hkeys) hfields
  rw [h1, h2]
  refine ⟨?_, ?_, by simp⟩
  · rw [List.map_map, List.map_map]
    rfl
  · intro v hv
    have hkeys2 : ((docs.map (stamp t2)).map fun d => d.key).Nodup := by
      rw [List.map_map]
      exact hkeys
    have hv2 : v ∈ (docs.map (stamp t2)).map fun d => d.key := by
      rw [List.map_map]
      exact hv
    exact length_filter_key_nodup (docs.map (stamp t2)) v hkeys2 hv2

set_option maxRecDepth 4000 in
/-- Witness for C1 on two keyed documents. -/
theorem c1_keyed_sync_idempotent_witness :
    ((syncKeyed mdocsW 1 (syncKeyed mdocsW 0 [])).map stripTs =
        (syncKeyed mdocsW 0 []).map stripTs)
    ∧ (∀ v ∈ mdocsW.map fun d => d.key,
        ((syncKeyed mdocsW 1 (syncKeyed mdocsW 0 [])).filter
          fun d => decide (d.key = v)).length = 1)
    ∧ (syncKeyed mdocsW 1 (syncKeyed mdocsW 0 [])).length = mdocsW.length :=
  c1_keyed_sync_idempotent mdocsW 0 1 (by with_unfolding_all decide)
    (by with_unfolding_all decide)

end BigData
